import Mathlib

/-!
Verification development for the per-table sink pipeline of the CDC
replication system: a shallow embedding of
`cdc/processor/sinkmanager/table_sink_wrapper.go` and
`cmd/pulsar-consumer/main.go`, together with proofs of the specified
properties.
-/

namespace TiCDC

/-- Modelled from the spec: `model.ResolvedTs` is not under `src/`.
Per the spec it is a pair (commit-ts, batch-ts, mode) where `Less`/`Greater`
give the natural total order over (commit-ts, batch-ts), treating normal
mode as batch-ts infinity.  We encode normal mode as `batch = none`. -/
structure ResolvedTs where
  ts : Nat
  batch : Option Nat
deriving DecidableEq, Repr

/-- Strict order on the batch component, `none` standing for infinity. -/
def batchLt : Option Nat → Option Nat → Bool
  | none, _ => false
  | some _, none => true
  | some x, some y => decide (x < y)

/-- Modelled from the spec: `ResolvedTs.Less`, the strict total order over
(commit-ts, batch-ts). -/
def ResolvedTs.less (a b : ResolvedTs) : Bool :=
  decide (a.ts < b.ts) || (decide (a.ts = b.ts) && batchLt a.batch b.batch)

/-- Modelled from the spec: `ResolvedTs.Greater`. -/
def ResolvedTs.greater (a b : ResolvedTs) : Bool :=
  ResolvedTs.less b a

/-- Modelled from the spec: `ResolvedTs.EqualOrGreater`, the negation of
`Less` in the total order. -/
def ResolvedTs.equalOrGreater (a b : ResolvedTs) : Bool :=
  !(ResolvedTs.less a b)

/-- Modelled from the spec: `model.NewResolvedTs` builds a normal-mode
resolved-ts from a plain commit-ts. -/
def newResolvedTs (t : Nat) : ResolvedTs :=
  { ts := t, batch := none }

/-- `a` is below-or-equal `b` in the checkpoint order: `b` is not `Less` `a`. -/
def rtsLe (a b : ResolvedTs) : Prop :=
  ResolvedTs.less b a = false

/-- The table lifecycle states (`tablepb.TableState`). -/
inductive TableState where
  | preparing
  | prepared
  | replicating
  | stopping
  | stopped
deriving DecidableEq, Repr

/-- Error kinds of the design (spec taxonomy plus the sink-internal kind the
repository's `tablesink` package constructs). -/
inductive ErrorKind where
  | sinkClosed
  | sinkInternal
  | oracleUnavailable
deriving DecidableEq, Repr

structure SinkError where
  kind : ErrorKind
  msg : String
deriving DecidableEq, Repr

def msgTableSinkCleared : String := "table sink cleared"

def msgOracleFailed : String := "genReplicateTs failed"

/-- Modelled from the spec: `tablesink.NewSinkInternalError` is not under
`src/`; its name selects the SinkInternal error kind of the taxonomy. -/
def newSinkInternalError (m : String) : SinkError :=
  { kind := ErrorKind.sinkInternal, msg := m }

/-- The cached state of a `tableSinkWrapper`
(`table_sink_wrapper.go`, struct `tableSinkWrapper`).
`sinkNonNil` mirrors `tableSink.s != nil` and `sinkVersion` mirrors
`tableSink.version`.  `sinkEvents` and `sinkResolvedCalls` record what has
been forwarded to the downstream sink (events are identified by abstract
ids); the wall-clock `advanced` marker is omitted (no claim touches it,
and `time.Now()` is external). -/
structure tableSinkWrapper where
  sinkNonNil : Bool
  sinkVersion : Nat
  checkpointTs : ResolvedTs
  resolvedTs : ResolvedTs
  lastSyncedTs : Nat
  replicateTs : Nat
  receivedSorterResolvedTs : Nat
  barrierTs : Nat
  tblState : TableState
  sinkEvents : List Nat
  sinkResolvedCalls : List ResolvedTs
deriving DecidableEq, Repr

/-- `newTableSinkWrapper` (table_sink_wrapper.go:109-135). -/
def newTableSinkWrapper (state0 : TableState) (startTs : Nat) : tableSinkWrapper :=
  { sinkNonNil := false
    sinkVersion := 0
    checkpointTs := newResolvedTs startTs
    resolvedTs := newResolvedTs startTs
    lastSyncedTs := 0
    replicateTs := 0
    receivedSorterResolvedTs := startTs
    barrierTs := startTs
    tblState := state0
    sinkEvents := []
    sinkResolvedCalls := [] }

/-- `tableSinkWrapper.start` (table_sink_wrapper.go:137-180).
`genTs` is the timestamp-oracle result (`none` = oracle failure).  The
double-start `log.Panic` is modelled as leaving the state unchanged. -/
def tableSinkWrapper.start (t : tableSinkWrapper) (startTs : Nat)
    (genTs : Option Nat) : Option SinkError × tableSinkWrapper :=
  if t.replicateTs ≠ 0 then (none, t)
  else
    match genTs with
    | none => (some { kind := ErrorKind.oracleUnavailable, msg := msgOracleFailed }, t)
    | some rts =>
      let t1 := { t with
        replicateTs := rts
        receivedSorterResolvedTs := max t.receivedSorterResolvedTs startTs }
      if (newResolvedTs startTs).greater t1.checkpointTs then
        (none, { t1 with
          checkpointTs := newResolvedTs startTs
          resolvedTs := newResolvedTs startTs
          tblState := TableState.replicating })
      else
        (none, { t1 with tblState := TableState.replicating })

/-- `tableSinkWrapper.appendRowChangedEvents` (table_sink_wrapper.go:182-191). -/
def tableSinkWrapper.appendRowChangedEvents (t : tableSinkWrapper)
    (events : List Nat) : Option SinkError × tableSinkWrapper :=
  if t.sinkNonNil then
    (none, { t with sinkEvents := t.sinkEvents ++ events })
  else
    (some (newSinkInternalError msgTableSinkCleared), t)

/-- `tableSinkWrapper.updateBarrierTs` (table_sink_wrapper.go:193-200):
a CAS loop realising a monotonic non-decreasing update. -/
def tableSinkWrapper.updateBarrierTs (t : tableSinkWrapper) (ts : Nat) :
    tableSinkWrapper :=
  { t with barrierTs := max t.barrierTs ts }

/-- `tableSinkWrapper.updateReceivedSorterResolvedTs`
(table_sink_wrapper.go:202-215). -/
def tableSinkWrapper.updateReceivedSorterResolvedTs (t : tableSinkWrapper)
    (ts : Nat) : tableSinkWrapper :=
  if ts ≤ t.receivedSorterResolvedTs then t
  else
    { t with
      receivedSorterResolvedTs := ts
      tblState :=
        if t.tblState = TableState.preparing then TableState.prepared
        else t.tblState }

/-- `tableSinkWrapper.updateResolvedTs` (table_sink_wrapper.go:217-228).
`sinkErr` is the result of the downstream `UpdateResolvedTs` call. -/
def tableSinkWrapper.updateResolvedTs (t : tableSinkWrapper) (ts : ResolvedTs)
    (sinkErr : Option SinkError) : Option SinkError × tableSinkWrapper :=
  if t.sinkNonNil then
    (sinkErr, { t with
      resolvedTs := ts
      sinkResolvedCalls := t.sinkResolvedCalls ++ [ts] })
  else
    (some (newSinkInternalError msgTableSinkCleared), t)

/-- `tableSinkWrapper.getCheckpointTs` (table_sink_wrapper.go:242-260).
`sinkCkpt` is the value the downstream sink's `GetCheckpointTs` returns at
this call.  Returns the (possibly advanced) cached checkpoint. -/
def tableSinkWrapper.getCheckpointTs (t : tableSinkWrapper)
    (sinkCkpt : ResolvedTs) : ResolvedTs × tableSinkWrapper :=
  if t.sinkNonNil then
    if t.checkpointTs.less sinkCkpt then
      (sinkCkpt, { t with checkpointTs := sinkCkpt })
    else
      (t.checkpointTs, t)
  else
    (t.checkpointTs, t)

/-- `tableSinkWrapper.getUpperBoundTs` (table_sink_wrapper.go:275-282). -/
def tableSinkWrapper.getUpperBoundTs (t : tableSinkWrapper) : Nat :=
  if t.receivedSorterResolvedTs > t.barrierTs then t.barrierTs
  else t.receivedSorterResolvedTs

/-- `tableSinkWrapper.markAsClosing` (table_sink_wrapper.go:284-301). -/
def tableSinkWrapper.markAsClosing (t : tableSinkWrapper) : tableSinkWrapper :=
  if t.tblState = TableState.stopped then t
  else { t with tblState := TableState.stopping }

/-- `tableSinkWrapper.clear` (table_sink_wrapper.go:373-394).
`sinkCkpt` and `sinkSynced` are the values the downstream sink returns from
`GetCheckpointTs` and `GetLastSyncedTs` at clear-time. -/
def tableSinkWrapper.clear (t : tableSinkWrapper) (sinkCkpt : ResolvedTs)
    (sinkSynced : Nat) : tableSinkWrapper :=
  if t.sinkNonNil then
    { t with
      checkpointTs :=
        if t.checkpointTs.less sinkCkpt then sinkCkpt else t.checkpointTs
      resolvedTs := sinkCkpt
      lastSyncedTs := sinkSynced
      sinkNonNil := false
      sinkVersion := 0 }
  else t

/-- `tableSinkWrapper.isReady` (table_sink_wrapper.go:319-335).
`created` is the creator factory's result: (sink non-nil?, version). -/
def tableSinkWrapper.isReady (t : tableSinkWrapper) (created : Bool × Nat) :
    Bool × tableSinkWrapper :=
  if t.sinkNonNil then (true, t)
  else
    (created.1, { t with sinkNonNil := created.1, sinkVersion := created.2 })

/-- `tableSinkWrapper.asyncClose` (table_sink_wrapper.go:337-350).
`closed` is the downstream `AsyncClose` result. -/
def tableSinkWrapper.asyncClose (t : tableSinkWrapper) (closed : Bool)
    (sinkCkpt : ResolvedTs) (sinkSynced : Nat) : Bool × tableSinkWrapper :=
  if t.sinkNonNil then
    if closed then (true, tableSinkWrapper.clear t sinkCkpt sinkSynced)
    else (false, t)
  else (true, t)

/-- `tableSinkWrapper.closeAndClear` (table_sink_wrapper.go:355-358):
the synchronous `Close` touches no cached state, then `clear`. -/
def tableSinkWrapper.closeAndClear (t : tableSinkWrapper)
    (sinkCkpt : ResolvedTs) (sinkSynced : Nat) : tableSinkWrapper :=
  tableSinkWrapper.clear t sinkCkpt sinkSynced

/-- `tableSinkWrapper.asyncStop` (table_sink_wrapper.go:304-315). -/
def tableSinkWrapper.asyncStop (t : tableSinkWrapper) (closed : Bool)
    (sinkCkpt : ResolvedTs) (sinkSynced : Nat) : Bool × tableSinkWrapper :=
  let t1 := tableSinkWrapper.markAsClosing t
  let r := tableSinkWrapper.asyncClose t1 closed sinkCkpt sinkSynced
  if r.1 then (true, { r.2 with tblState := TableState.stopped })
  else (false, r.2)

/-- `tableSinkWrapper.restart` (table_sink_wrapper.go:408-418). -/
def tableSinkWrapper.restart (t : tableSinkWrapper) (genTs : Option Nat) :
    Option SinkError × tableSinkWrapper :=
  match genTs with
  | none => (some { kind := ErrorKind.oracleUnavailable, msg := msgOracleFailed }, t)
  | some rts => (none, { t with replicateTs := rts })

/-- One wrapper operation together with the responses of the external
collaborators (downstream sink, sink factory, timestamp oracle) consumed
during that operation. -/
inductive WOp where
  | start (startTs : Nat) (genTs : Option Nat)
  | appendRows (events : List Nat)
  | updateBarrierTs (ts : Nat)
  | updateReceivedSorterResolvedTs (ts : Nat)
  | updateResolvedTs (ts : ResolvedTs) (sinkErr : Option SinkError)
  | getCheckpointTs (sinkCkpt : ResolvedTs)
  | markAsClosing
  | isReady (created : Bool × Nat)
  | asyncClose (closed : Bool) (sinkCkpt : ResolvedTs) (sinkSynced : Nat)
  | closeAndClear (sinkCkpt : ResolvedTs) (sinkSynced : Nat)
  | asyncStop (closed : Bool) (sinkCkpt : ResolvedTs) (sinkSynced : Nat)
  | restart (genTs : Option Nat)

/-- State transition of one wrapper operation. -/
def step (t : tableSinkWrapper) : WOp → tableSinkWrapper
  | WOp.start s g => (tableSinkWrapper.start t s g).2
  | WOp.appendRows evs => (tableSinkWrapper.appendRowChangedEvents t evs).2
  | WOp.updateBarrierTs ts => tableSinkWrapper.updateBarrierTs t ts
  | WOp.updateReceivedSorterResolvedTs ts =>
      tableSinkWrapper.updateReceivedSorterResolvedTs t ts
  | WOp.updateResolvedTs ts e => (tableSinkWrapper.updateResolvedTs t ts e).2
  | WOp.getCheckpointTs c => (tableSinkWrapper.getCheckpointTs t c).2
  | WOp.markAsClosing => tableSinkWrapper.markAsClosing t
  | WOp.isReady created => (tableSinkWrapper.isReady t created).2
  | WOp.asyncClose cl c sy => (tableSinkWrapper.asyncClose t cl c sy).2
  | WOp.closeAndClear c sy => tableSinkWrapper.closeAndClear t c sy
  | WOp.asyncStop cl c sy => (tableSinkWrapper.asyncStop t cl c sy).2
  | WOp.restart g => (tableSinkWrapper.restart t g).2

/-- Running a sequence of wrapper operations. -/
def run (t : tableSinkWrapper) (ops : List WOp) : tableSinkWrapper :=
  ops.foldl step t


/-- One live entry of a partition sink's `tablesCommitTsMap` at flush time,
together with the downstream table-sink's responses during the pass
(`GetCheckpointTs` value, whether `UpdateResolvedTs` errs). -/
structure FlushEntry where
  tableId : Int
  lastCommitTs : Nat
  sinkCkpt : ResolvedTs
  updateErr : Bool
deriving DecidableEq, Repr

/-- The `Range` body of `syncFlushRowChangedEvents` (main.go:727-743):
walks the live entries, issues `UpdateResolvedTs(NewResolvedTs resolvedTs)`
to each table-sink, stops early when a call errs (leaving
`flushedResolvedTs` untouched), and clears the flag whenever a checkpoint
is not `EqualOrGreater` the target.  Accumulates the calls issued. -/
def syncFlushPassGo (resolvedTs : Nat) :
    List FlushEntry → Bool → List (Int × ResolvedTs) →
    Bool × List (Int × ResolvedTs)
  | [], fl, calls => (fl, calls)
  | e :: rest, fl, calls =>
    let call := (e.tableId, newResolvedTs resolvedTs)
    if e.updateErr then (fl, calls ++ [call])
    else
      syncFlushPassGo resolvedTs rest
        (if e.sinkCkpt.equalOrGreater (newResolvedTs resolvedTs) then fl
         else false)
        (calls ++ [call])

/-- One iteration of the retry loop of `syncFlushRowChangedEvents`
(main.go:720-748).  The loop returns `nil` as soon as an iteration ends
with `flushedResolvedTs = true`. -/
def syncFlushPass (entries : List FlushEntry) (resolvedTs : Nat) :
    Bool × List (Int × ResolvedTs) :=
  syncFlushPassGo resolvedTs entries true []

/-- The call value the spec's words prescribe for a flush:
`updateResolvedTs(min(globalResolvedTs, last-committed-ts))`.  Stated for
comparison with what the source (`syncFlushPass`) actually issues. -/
def syncFlushCallSpec (globalResolvedTs lastCommitTs : Nat) : ResolvedTs :=
  newResolvedTs (min globalResolvedTs lastCommitTs)

/-- Concrete flush entries used to evaluate `syncFlushPass`. -/
def flushEntryA : FlushEntry :=
  { tableId := 1, lastCommitTs := 5, sinkCkpt := newResolvedTs 10,
    updateErr := false }

def flushEntryB : FlushEntry :=
  { tableId := 2, lastCommitTs := 20, sinkCkpt := newResolvedTs 0,
    updateErr := true }

def flushEntryC : FlushEntry :=
  { tableId := 3, lastCommitTs := 7, sinkCkpt := newResolvedTs 9,
    updateErr := false }

/-- A wrapper with start-ts 100 whose sink has been created (version 1):
reached by `newTableSinkWrapper` followed by `isReady`. -/
def wrapperWithSink100 : tableSinkWrapper :=
  (tableSinkWrapper.isReady (newTableSinkWrapper TableState.preparing 100)
    (true, 1)).2



/-- Modelled from the spec: `sorter.Position` is not under `src/`.  Per the
spec it is commit-ts + start-ts, totally ordered; `Compare` is the
lexicographic comparison. -/
structure Position where
  commitTs : Nat
  startTs : Nat
deriving DecidableEq, Repr

def Position.compare (p q : Position) : Ordering :=
  if p.commitTs < q.commitTs then Ordering.lt
  else if q.commitTs < p.commitTs then Ordering.gt
  else if p.startTs < q.startTs then Ordering.lt
  else if q.startTs < p.startTs then Ordering.gt
  else Ordering.eq

/-- Modelled from the spec: `oracle.ExtractPhysical` is not under `src/`.
The spec gives the oracle composition `(physicalMs << 18) | logical`, so
the physical part of a timestamp is its value shifted right by 18 bits
(returned as a signed 64-bit integer in the source, hence `Int`). -/
def extractPhysical (ts : Nat) : Int :=
  Int.ofNat (ts / 2 ^ 18)

/-- `rangeEventCount` (table_sink_wrapper.go:94-99). -/
structure rangeEventCount where
  firstPos : Position
  lastPos : Position
  events : Int
deriving DecidableEq, Repr

/-- `newRangeEventCount` (table_sink_wrapper.go:101-107). -/
def newRangeEventCount (pos : Position) (events : Int) : rangeEventCount :=
  { firstPos := pos, lastPos := pos, events := events }

/-- `tableSinkWrapper.updateRangeEventCounts` (table_sink_wrapper.go:420-443),
acting on the ledger `rangeEventCounts.c`. -/
def updateRangeEventCounts (c : List rangeEventCount)
    (eventCount : rangeEventCount) : List rangeEventCount :=
  match c.getLast? with
  | none => c ++ [eventCount]
  | some last =>
    if last.lastPos.compare eventCount.lastPos = Ordering.lt then
      if extractPhysical eventCount.lastPos.commitTs -
          extractPhysical last.firstPos.commitTs ≥ 1000 then
        c ++ [eventCount]
      else
        c.dropLast ++
          [{ last with
              lastPos := eventCount.lastPos
              events := last.events + eventCount.events }]
    else c

/-- The index `sort.Search` computes in `cleanRangeEventCounts`
(table_sink_wrapper.go:449-451): by `sort.Search`'s contract, the least
index whose record has `lastPos > upperBound` (the ledger's length if
none), the predicate being monotone on a ledger with ascending
last-positions. -/
def rangeIdx (c : List rangeEventCount) (upperBound : Position) : Nat :=
  (c.takeWhile
    (fun r => !(r.lastPos.compare upperBound == Ordering.gt))).length

/-- `tableSinkWrapper.cleanRangeEventCounts` (table_sink_wrapper.go:445-470),
returning the boolean result together with the new ledger. -/
def cleanRangeEventCounts (c : List rangeEventCount) (upperBound : Position)
    (minEvents : Int) : Bool × List rangeEventCount :=
  if c.length = 0 ∨ rangeIdx c upperBound = 0 then (false, c)
  else if ((c.take (rangeIdx c upperBound)).map (fun r => r.events)).sum ≥
      minEvents then
    (true, c.drop (rangeIdx c upperBound))
  else
    match c.drop (rangeIdx c upperBound - 1) with
    | [] => (false, [])
    | r :: rest =>
      (false,
        { r with
            events :=
              ((c.take (rangeIdx c upperBound)).map (fun r => r.events)).sum }
          :: rest)

/-- Strictly ascending last-positions: the ledger invariant of the spec. -/
def ascLastPos : List rangeEventCount → Bool
  | [] => true
  | [_] => true
  | a :: b :: rest =>
    (a.lastPos.compare b.lastPos == Ordering.lt) && ascLastPos (b :: rest)

/-- Concrete ledger records used as witnesses. -/
def recA : rangeEventCount :=
  { firstPos := { commitTs := 100, startTs := 0 },
    lastPos := { commitTs := 100, startTs := 0 }, events := 5 }

def recB : rangeEventCount :=
  { firstPos := { commitTs := 1000 * 2 ^ 18, startTs := 0 },
    lastPos := { commitTs := 1000 * 2 ^ 18, startTs := 0 }, events := 3 }

def recC : rangeEventCount :=
  { firstPos := { commitTs := 10, startTs := 0 },
    lastPos := { commitTs := 10, startTs := 0 }, events := 4 }

def recD : rangeEventCount :=
  { firstPos := { commitTs := 20, startTs := 0 },
    lastPos := { commitTs := 20, startTs := 0 }, events := 6 }



/-- The consumer-level state the driver loop touches (`Consumer` plus the
per-partition `partitionSinks.resolvedTs`, main.go:272-304).  `ddls` is
the queue of DDL commit timestamps and `ddlMax` mirrors
`ddlWithMaxCommitTs` (which survives pops). -/
structure ConsumerState where
  globalResolvedTs : Nat
  parts : List Nat
  ddls : List Nat
  ddlMax : Option Nat
deriving DecidableEq, Repr

def maxUint64 : Nat := 2 ^ 64 - 1

/-- `Consumer.getMinPartitionResolvedTs` (main.go:649-659). -/
def getMinPartitionResolvedTs (parts : List Nat) : Nat :=
  parts.foldl min maxUint64

/-- `NewConsumer` (main.go:309-375): `partitionNum` partition sinks, all
resolved-ts zero, `globalResolvedTs` zero, empty DDL queue. -/
def newConsumer (partitionNum : Nat) : ConsumerState :=
  { globalResolvedTs := 0
    parts := List.replicate partitionNum 0
    ddls := []
    ddlMax := none }

/-- The `MessageTypeResolved` branch of `ConsumeMsg` (main.go:531-576) as
it acts on the driver-visible fields: a resolved-ts below the global or
the partition frontier is dropped, otherwise the partition's resolved-ts
is stored.  (The flushing of buffered row groups touches only table
sinks.) -/
def consumeResolved (s : ConsumerState) (i : Nat) (ts : Nat) : ConsumerState :=
  if ts < s.globalResolvedTs ∨ ts < s.parts.getD i 0 then s
  else { s with parts := s.parts.set i ts }

/-- `Consumer.appendDDL` (main.go:593-616).  A DDL below the maximum seen
commit-ts is a `log.Panic` (`none`); the identity-equality skip of a
redundant DDL only omits a duplicate append and is not modelled
(pointer equality). -/
def appendDDL (s : ConsumerState) (d : Nat) : Option ConsumerState :=
  match s.ddlMax with
  | some m =>
    if d < m then none
    else some { s with ddls := s.ddls ++ [d], ddlMax := some d }
  | none => some { s with ddls := s.ddls ++ [d], ddlMax := some d }

/-- The value `minPartitionResolvedTs` holds at the fallback check of
`Consumer.Run` (main.go:672-699): the minimum partition resolved-ts,
lowered to the front DDL's commit-ts when that DDL is ready. -/
def adjustedMin (s : ConsumerState) : Nat :=
  match s.ddls with
  | d :: _ =>
    if d ≤ getMinPartitionResolvedTs s.parts then d
    else getMinPartitionResolvedTs s.parts
  | [] => getMinPartitionResolvedTs s.parts

/-- One tick of `Consumer.Run` (main.go:662-718): pop the front DDL when
ready, `log.Panic` (`none`) when `globalResolvedTs` exceeds the adjusted
minimum, otherwise raise `globalResolvedTs` to the maximum of its old
value and the adjusted minimum.  (The `syncFlushRowChangedEvents` calls
touch only table sinks.) -/
def tick (s : ConsumerState) : Option ConsumerState :=
  if s.globalResolvedTs > adjustedMin s then none
  else
    some { s with
      globalResolvedTs := max s.globalResolvedTs (adjustedMin s)
      ddls :=
        match s.ddls with
        | d :: rest =>
          if d ≤ getMinPartitionResolvedTs s.parts then rest else s.ddls
        | [] => s.ddls }

/-- Consumer-level actions: a resolved message on partition `i`, a DDL
message (on partition 0), a driver tick. -/
inductive CAction where
  | resolved (i : Nat) (ts : Nat)
  | ddl (d : Nat)
  | tick

def cstep (s : ConsumerState) : CAction → Option ConsumerState
  | CAction.resolved i ts => some (consumeResolved s i ts)
  | CAction.ddl d => appendDDL s d
  | CAction.tick => tick s

def crun (s : Option ConsumerState) (as : List CAction) : Option ConsumerState :=
  as.foldl (fun o a => o.bind (fun st => cstep st a)) s

/-- Non-decreasing chain of queued DDL commit timestamps. -/
def ddlsSortedLe : List Nat → Bool
  | [] => true
  | [_] => true
  | a :: b :: rest => decide (a ≤ b) && ddlsSortedLe (b :: rest)

/-- `ddlWithMaxCommitTs` bounds the queue (and is set once the queue has
ever been non-empty). -/
def ddlMaxOk (s : ConsumerState) : Bool :=
  match s.ddlMax with
  | none => s.ddls.isEmpty
  | some m => s.ddls.all (fun d => decide (d ≤ m))

/-- The inductive invariant of the driver loop: the global resolved-ts
never exceeds the minimum partition resolved-ts, the DDL queue is sorted,
every queued DDL is at least the global resolved-ts, and `ddlMax` bounds
the queue. -/
def consumerInv (s : ConsumerState) : Bool :=
  decide (s.globalResolvedTs ≤ getMinPartitionResolvedTs s.parts) &&
  ddlsSortedLe s.ddls &&
  s.ddls.all (fun d => decide (s.globalResolvedTs ≤ d)) &&
  ddlMaxOk s



/-- `model.RowChangedEvent` as the consumer and the wrapper use it:
commit-ts, the column/pre-column counts, and the `ApproximateBytes` value
(an external method, modelled as a field). -/
structure RowChangedEvent where
  commitTs : Nat
  columns : Nat
  preColumns : Nat
  approximateBytes : Nat
deriving DecidableEq, Repr

/-- The index `sort.Search` computes in `eventsGroup.Resolve`
(main.go:396-398): by `sort.Search`'s contract, the least index whose
event has `CommitTs > resolveTs` (the length if none), the predicate
being monotone on the sorted buffer. -/
def resolveIdx (s : List RowChangedEvent) (resolveTs : Nat) : Nat :=
  (s.takeWhile (fun e => !(decide (e.commitTs > resolveTs)))).length

abbrev sortedByCommitTs (s : List RowChangedEvent) : Prop :=
  List.Pairwise (fun a b => a.commitTs ≤ b.commitTs) s

/-- `eventsGroup.Resolve` (main.go:391-403), modelled relationally:
`sort.Slice` (NOT `sort.SliceStable`) guarantees only that the buffer
afterwards is some permutation of it ordered by the comparator
`CommitTs <`; the split then happens at `resolveIdx`.  `flushed` is the
returned prefix, `retained` what stays in the group. -/
def ResolveOutcome (buf : List RowChangedEvent) (resolveTs : Nat)
    (flushed retained : List RowChangedEvent) : Prop :=
  ∃ s, List.Perm s buf ∧ sortedByCommitTs s ∧
    flushed = s.take (resolveIdx s resolveTs) ∧
    retained = s.drop (resolveIdx s resolveTs)

/-- The spec's words for `Resolve`: a STABLE sort by commit-ts (equal
commit-ts keep arrival order), here insertion sort, then the same split. -/
def insertByCommitTs (e : RowChangedEvent) :
    List RowChangedEvent → List RowChangedEvent
  | [] => [e]
  | x :: rest =>
    if x.commitTs ≤ e.commitTs then x :: insertByCommitTs e rest
    else e :: x :: rest

def stableSortByCommitTs (l : List RowChangedEvent) : List RowChangedEvent :=
  l.foldl (fun acc e => insertByCommitTs e acc) []

def resolveSpecStable (buf : List RowChangedEvent) (ts : Nat) :
    List RowChangedEvent × List RowChangedEvent :=
  ((stableSortByCommitTs buf).take (resolveIdx (stableSortByCommitTs buf) ts),
   (stableSortByCommitTs buf).drop (resolveIdx (stableSortByCommitTs buf) ts))

/-- Two events with the same commit-ts 5, distinguished by their column
counts; `evA` arrives before `evB`. -/
def evA : RowChangedEvent :=
  { commitTs := 5, columns := 1, preColumns := 0, approximateBytes := 0 }

def evB : RowChangedEvent :=
  { commitTs := 5, columns := 2, preColumns := 0, approximateBytes := 0 }

/-- `model.PolymorphicEvent` as `handleRowChangedEvents` consumes it: only
the (nullable) `Row` field matters. -/
structure PolymorphicEvent where
  row : Option RowChangedEvent
deriving DecidableEq, Repr

/-- `handleRowChangedEvents` (table_sink_wrapper.go:490-523): skip nil
events and nil rows, skip rows with neither columns nor pre-columns,
return the remaining rows in order together with the summed
`ApproximateBytes`. -/
def handleRowChangedEvents :
    List (Option PolymorphicEvent) → List RowChangedEvent × Nat
  | [] => ([], 0)
  | oe :: rest =>
    match oe with
    | none => handleRowChangedEvents rest
    | some e =>
      match e.row with
      | none => handleRowChangedEvents rest
      | some rowEvent =>
        if rowEvent.columns = 0 ∧ rowEvent.preColumns = 0 then
          handleRowChangedEvents rest
        else
          (rowEvent :: (handleRowChangedEvents rest).1,
            rowEvent.approximateBytes + (handleRowChangedEvents rest).2)

/-- The row an input event contributes, if any: non-nil event, non-nil
row, at least one column or pre-column. -/
def rowOf : Option PolymorphicEvent → Option RowChangedEvent
  | none => none
  | some e =>
    match e.row with
    | none => none
    | some r =>
      if r.columns = 0 ∧ r.preColumns = 0 then none else some r

def goodEvent (oe : Option PolymorphicEvent) : Bool :=
  (rowOf oe).isSome

def pevNilRow : PolymorphicEvent := { row := none }

def pevEmptyRow : PolymorphicEvent :=
  { row := some { commitTs := 1, columns := 0, preColumns := 0,
                  approximateBytes := 7 } }



/-- The backquote character. -/
def bq : Char := Char.ofNat 96

/-- Modelled from the spec: `quotes.EscapeName` is not under `src/` and the
spec does not describe it; modelled as the conventional MySQL identifier
escaping its name and call site imply: every backquote is doubled. -/
def escName : List Char → List Char
  | [] => []
  | c :: rest => if c = bq then bq :: bq :: escName rest else c :: escName rest

/-- Modelled from the spec: `quotes.QuoteSchema` is not under `src/`;
modelled as backquote-wrapped escaped schema and table names joined by a
dot. -/
def quoteSchema (schema table : List Char) : List Char :=
  bq :: (escName schema ++ bq :: ('.' :: bq :: (escName table ++ [bq])))

def digitChar (d : Nat) : Char :=
  match d with
  | 0 => '0'
  | 1 => '1'
  | 2 => '2'
  | 3 => '3'
  | 4 => '4'
  | 5 => '5'
  | 6 => '6'
  | 7 => '7'
  | 8 => '8'
  | _ => '9'

def charDigit (c : Char) : Nat := c.toNat - 48

/-- Decimal digit string of a natural number (`fmt.Sprintf` with `%d`). -/
def natChars (n : Nat) : List Char :=
  if n = 0 then ['0'] else ((Nat.digits 10 n).reverse).map digitChar

/-- Decimal string of an `int64` (`fmt.Sprintf` with `%d`). -/
def intChars (p : Int) : List Char :=
  if p < 0 then '-' :: natChars p.natAbs else natChars p.toNat

/-- The map key `generateFakeTableID` builds (main.go:759-762):
`QuoteSchema(schema, table)`, with ``.`<partition>` `` appended when the
partition id is non-zero. -/
def keyOf (schema table : List Char) (partition : Int) : List Char :=
  if partition = 0 then quoteSchema schema table
  else quoteSchema schema table ++ '.' :: bq :: (intChars partition ++ [bq])

/-- Reads an escaped name up to its closing backquote, undoing the
doubling; returns the name and the remainder after the closing quote. -/
def parseName : List Char → Option (List Char × List Char)
  | [] => none
  | c :: rest =>
    if c = bq then
      match rest with
      | [] => some ([], [])
      | c2 :: rest2 =>
        if c2 = bq then
          (parseName rest2).map (fun pr => (bq :: pr.1, pr.2))
        else some ([], rest)
    else (parseName rest).map (fun pr => (c :: pr.1, pr.2))

def parseNatChars (cs : List Char) : Nat :=
  Nat.ofDigits 10 ((cs.map charDigit).reverse)

def parseIntChars (cs : List Char) : Int :=
  match cs with
  | [] => 0
  | c :: rest =>
    if c = '-' then -(parseNatChars rest : Int) else (parseNatChars (c :: rest) : Int)

def headNotBq : List Char → Prop
  | [] => True
  | c :: _ => c ≠ bq

/-- Inverse of `keyOf`: recovers (schema, table, partition) from a key,
partition 0 when the partition suffix is absent. -/
def decodeKey (k : List Char) : Option (List Char × List Char × Int) :=
  match k with
  | [] => none
  | c :: rest =>
    if c = bq then
      match parseName rest with
      | none => none
      | some (s, r1) =>
        match r1 with
        | c1 :: c2 :: r2 =>
          if c1 = '.' ∧ c2 = bq then
            match parseName r2 with
            | none => none
            | some (t, r3) =>
              match r3 with
              | [] => some (s, t, 0)
              | d1 :: d2 :: r4 =>
                if d1 = '.' ∧ d2 = bq then
                  some (s, t,
                    parseIntChars (r4.takeWhile (fun ch => decide (ch ≠ bq))))
                else none
              | _ => none
          else none
        | _ => none
    else none

/-- `fakeTableIDGenerator` (main.go:750-754); the Go map is an association
list (keys are distinct by construction). -/
structure fakeTableIDGenerator where
  tableIDs : List (List Char × Int)
  currentTableID : Int
deriving DecidableEq, Repr

def assocFind : List (List Char × Int) → List Char → Option Int
  | [], _ => none
  | (k, v) :: rest, key => if k = key then some v else assocFind rest key

/-- `fakeTableIDGenerator.generateFakeTableID` (main.go:756-769). -/
def generateFakeTableID (g : fakeTableIDGenerator) (schema table : List Char)
    (partition : Int) : Int × fakeTableIDGenerator :=
  match assocFind g.tableIDs (keyOf schema table partition) with
  | some tableID => (tableID, g)
  | none =>
    (g.currentTableID + 1,
     { tableIDs :=
         (keyOf schema table partition, g.currentTableID + 1) :: g.tableIDs
       currentTableID := g.currentTableID + 1 })

/-- The generator as `NewConsumer` builds it (main.go:320-322). -/
def newFakeTableIDGenerator : fakeTableIDGenerator :=
  { tableIDs := [], currentTableID := 0 }

/-- A sequence of `generateFakeTableID` requests, returning the ids in
order. -/
def genRun : fakeTableIDGenerator → List (List Char × List Char × Int) →
    List Int × fakeTableIDGenerator
  | g, [] => ([], g)
  | g, (s, t, p) :: rest =>
    (((generateFakeTableID g s t p).1 ::
        (genRun (generateFakeTableID g s t p).2 rest).1),
      (genRun (generateFakeTableID g s t p).2 rest).2)

/-- Generator invariant: ids are positive, bounded by the counter, and
pairwise distinct. -/
def genInv (g : fakeTableIDGenerator) : Prop :=
  (∀ v ∈ g.tableIDs.map Prod.snd, 1 ≤ v ∧ v ≤ g.currentTableID) ∧
  0 ≤ g.currentTableID ∧
  (g.tableIDs.map Prod.snd).Nodup

def reqX : List Char × List Char × Int := (['a'], ['b'], 0)

def reqY : List Char × List Char × Int := (['a'], ['c'], 0)


theorem rtsLe_refl (a : ResolvedTs) : rtsLe a a := by
  cases a with
  | mk t ob =>
    cases ob <;> simp [rtsLe, ResolvedTs.less, batchLt]

theorem rtsLe_of_less {a b : ResolvedTs} (h : ResolvedTs.less a b = true) :
    rtsLe a b := by
  cases a with
  | mk t1 ob1 =>
    cases b with
    | mk t2 ob2 =>
      cases ob1 <;> cases ob2 <;>
        simp [rtsLe, ResolvedTs.less, batchLt] at h ⊢ <;> omega

theorem rtsLe_trans {a b c : ResolvedTs} (h1 : rtsLe a b) (h2 : rtsLe b c) :
    rtsLe a c := by
  cases a with
  | mk t1 ob1 =>
    cases b with
    | mk t2 ob2 =>
      cases c with
      | mk t3 ob3 =>
        cases ob1 <;> cases ob2 <;> cases ob3 <;>
          simp [rtsLe, ResolvedTs.less, batchLt] at h1 h2 ⊢ <;> omega

theorem clear_ckpt_ge (t : tableSinkWrapper) (c : ResolvedTs) (sy : Nat) :
    rtsLe t.checkpointTs (tableSinkWrapper.clear t c sy).checkpointTs := by
  unfold tableSinkWrapper.clear
  by_cases hs : t.sinkNonNil = true
  · simp only [hs, if_true]
    by_cases hl : t.checkpointTs.less c = true
    · simp only [hl, if_true]
      exact rtsLe_of_less hl
    · simp only [Bool.not_eq_true] at hl
      simp [hl, rtsLe_refl]
  · simp only [Bool.not_eq_true] at hs
    simp [hs, rtsLe_refl]

theorem step_ckpt_ge (t : tableSinkWrapper) (op : WOp) :
    rtsLe t.checkpointTs (step t op).checkpointTs := by
  cases op with
  | start s g =>
    simp only [step]
    unfold tableSinkWrapper.start
    split
    · exact rtsLe_refl _
    · cases g with
      | none => exact rtsLe_refl _
      | some rts =>
        simp only
        split
        · next hg => exact rtsLe_of_less hg
        · exact rtsLe_refl _
  | appendRows evs =>
    simp only [step]
    unfold tableSinkWrapper.appendRowChangedEvents
    by_cases hs : t.sinkNonNil = true <;> simp [hs, rtsLe_refl]
  | updateBarrierTs ts =>
    simp only [step]
    unfold tableSinkWrapper.updateBarrierTs
    simp [rtsLe_refl]
  | updateReceivedSorterResolvedTs ts =>
    simp only [step]
    unfold tableSinkWrapper.updateReceivedSorterResolvedTs
    by_cases h : ts ≤ t.receivedSorterResolvedTs <;> simp [h, rtsLe_refl]
  | updateResolvedTs ts e =>
    simp only [step]
    unfold tableSinkWrapper.updateResolvedTs
    by_cases hs : t.sinkNonNil = true <;> simp [hs, rtsLe_refl]
  | getCheckpointTs c =>
    simp only [step]
    unfold tableSinkWrapper.getCheckpointTs
    by_cases hs : t.sinkNonNil = true
    · simp only [hs, if_true]
      by_cases hl : t.checkpointTs.less c = true
      · simp only [hl, if_true]
        exact rtsLe_of_less hl
      · simp only [Bool.not_eq_true] at hl
        simp [hl, rtsLe_refl]
    · simp only [Bool.not_eq_true] at hs
      simp [hs, rtsLe_refl]
  | markAsClosing =>
    simp only [step]
    unfold tableSinkWrapper.markAsClosing
    by_cases h : t.tblState = TableState.stopped <;> simp [h, rtsLe_refl]
  | isReady created =>
    simp only [step]
    unfold tableSinkWrapper.isReady
    by_cases hs : t.sinkNonNil = true <;> simp [hs, rtsLe_refl]
  | asyncClose cl c sy =>
    simp only [step]
    unfold tableSinkWrapper.asyncClose
    by_cases hs : t.sinkNonNil = true
    · simp only [hs, if_true]
      by_cases hc : cl = true
      · simpa [hc] using clear_ckpt_ge t c sy
      · simp only [Bool.not_eq_true] at hc
        simp [hc, rtsLe_refl]
    · simp only [Bool.not_eq_true] at hs
      simp [hs, rtsLe_refl]
  | closeAndClear c sy =>
    simp only [step]
    unfold tableSinkWrapper.closeAndClear
    exact clear_ckpt_ge t c sy
  | asyncStop cl c sy =>
    simp only [step]
    unfold tableSinkWrapper.asyncStop
    simp only
    by_cases hr : (tableSinkWrapper.asyncClose
        (tableSinkWrapper.markAsClosing t) cl c sy).1 = true
    · simp only [hr, if_true]
      have h1 : rtsLe t.checkpointTs
          (tableSinkWrapper.markAsClosing t).checkpointTs := by
        unfold tableSinkWrapper.markAsClosing
        by_cases h : t.tblState = TableState.stopped <;> simp [h, rtsLe_refl]
      have h2 : rtsLe (tableSinkWrapper.markAsClosing t).checkpointTs
          (tableSinkWrapper.asyncClose
            (tableSinkWrapper.markAsClosing t) cl c sy).2.checkpointTs := by
        unfold tableSinkWrapper.asyncClose
        by_cases hs : (tableSinkWrapper.markAsClosing t).sinkNonNil = true
        · simp only [hs, if_true]
          by_cases hc : cl = true
          · simpa [hc] using
              clear_ckpt_ge (tableSinkWrapper.markAsClosing t) c sy
          · simp only [Bool.not_eq_true] at hc
            simp [hc, rtsLe_refl]
        · simp only [Bool.not_eq_true] at hs
          simp [hs, rtsLe_refl]
      exact rtsLe_trans (rtsLe_trans h1 h2) (rtsLe_refl _)
    · simp only [Bool.not_eq_true] at hr
      simp only [hr, Bool.false_eq_true, if_false]
      have h1 : rtsLe t.checkpointTs
          (tableSinkWrapper.markAsClosing t).checkpointTs := by
        unfold tableSinkWrapper.markAsClosing
        by_cases h : t.tblState = TableState.stopped <;> simp [h, rtsLe_refl]
      have h2 : rtsLe (tableSinkWrapper.markAsClosing t).checkpointTs
          (tableSinkWrapper.asyncClose
            (tableSinkWrapper.markAsClosing t) cl c sy).2.checkpointTs := by
        unfold tableSinkWrapper.asyncClose
        by_cases hs : (tableSinkWrapper.markAsClosing t).sinkNonNil = true
        · simp only [hs, if_true]
          by_cases hc : cl = true
          · simpa [hc] using
              clear_ckpt_ge (tableSinkWrapper.markAsClosing t) c sy
          · simp only [Bool.not_eq_true] at hc
            simp [hc, rtsLe_refl]
        · simp only [Bool.not_eq_true] at hs
          simp [hs, rtsLe_refl]
      exact rtsLe_trans h1 h2
  | restart g =>
    simp only [step]
    unfold tableSinkWrapper.restart
    cases g <;> simp [rtsLe_refl]

theorem run_ckpt_ge (t : tableSinkWrapper) (ops : List WOp) :
    rtsLe t.checkpointTs (run t ops).checkpointTs := by
  induction ops generalizing t with
  | nil => exact rtsLe_refl _
  | cons op rest ih =>
    exact rtsLe_trans (step_ckpt_ge t op) (ih (step t op))

theorem getCheckpointTs_fst (t : tableSinkWrapper) (c : ResolvedTs) :
    (tableSinkWrapper.getCheckpointTs t c).1 =
      (tableSinkWrapper.getCheckpointTs t c).2.checkpointTs := by
  unfold tableSinkWrapper.getCheckpointTs
  by_cases hs : t.sinkNonNil = true
  · simp only [hs, if_true]
    by_cases hl : t.checkpointTs.less c = true
    · simp [hl]
    · simp only [Bool.not_eq_true] at hl
      simp [hl]
  · simp only [Bool.not_eq_true] at hs
    simp [hs]

/-- Claim C1: for every tableSinkWrapper and every sequence of its
operations (start, updateResolvedTs, getCheckpointTs, asyncClose/clear,
closeAndClear, isReady, and the rest), the value returned by
`getCheckpointTs` is monotonic non-decreasing: a later result is never
`Less` than an earlier one, including across a sink close/clear followed
by `isReady` re-creating the sink. -/
theorem c1_getCheckpointTs_monotonic (state0 : TableState) (startTs : Nat)
    (ops1 ops2 : List WOp) (sinkCkpt1 sinkCkpt2 : ResolvedTs) :
    ResolvedTs.less
      (tableSinkWrapper.getCheckpointTs
        (run (step (run (newTableSinkWrapper state0 startTs) ops1)
          (WOp.getCheckpointTs sinkCkpt1)) ops2) sinkCkpt2).1
      (tableSinkWrapper.getCheckpointTs
        (run (newTableSinkWrapper state0 startTs) ops1) sinkCkpt1).1
      = false := by
  set s1 := run (newTableSinkWrapper state0 startTs) ops1 with hs1
  have h1 : (tableSinkWrapper.getCheckpointTs s1 sinkCkpt1).1 =
      (step s1 (WOp.getCheckpointTs sinkCkpt1)).checkpointTs := by
    rw [getCheckpointTs_fst]; rfl
  have h2 : rtsLe (step s1 (WOp.getCheckpointTs sinkCkpt1)).checkpointTs
      (run (step s1 (WOp.getCheckpointTs sinkCkpt1)) ops2).checkpointTs :=
    run_ckpt_ge _ _
  have h3 : rtsLe
      (run (step s1 (WOp.getCheckpointTs sinkCkpt1)) ops2).checkpointTs
      (tableSinkWrapper.getCheckpointTs
        (run (step s1 (WOp.getCheckpointTs sinkCkpt1)) ops2) sinkCkpt2).1 := by
    rw [getCheckpointTs_fst]
    exact step_ckpt_ge _ (WOp.getCheckpointTs sinkCkpt2)
  rw [h1]
  exact rtsLe_trans h2 h3


/-- Claim C2 counterexample: the flush body issues
`UpdateResolvedTs(NewResolvedTs target)` — for a live entry with
last-committed-ts 5 and target 10 the issued value is 10, not the
`min(globalResolvedTs, last-committed-ts) = 5` the claim states; moreover,
when a downstream `UpdateResolvedTs` errs, the pass reports completion
although that sink's checkpoint (0) is below the target. -/
theorem c2_counterexample :
    (syncFlushPass [flushEntryA] 10).2 = [((1 : Int), newResolvedTs 10)] ∧
    flushEntryA.lastCommitTs = 5 ∧
    newResolvedTs 10 ≠ syncFlushCallSpec 10 5 ∧
    ((syncFlushPass [flushEntryB] 10).1 = true ∧
      flushEntryB.sinkCkpt.equalOrGreater (newResolvedTs 10) = false) := by
  decide

/-- Claim C2 (amended): provided no downstream `UpdateResolvedTs` call
errs, a flush pass calls `updateResolvedTs` with the target resolved-ts
itself (not `min` with the last-committed-ts) for each live entry, and the
pass completes exactly when every table-sink's checkpoint-ts is
`EqualOrGreater` the target resolved-ts. -/
theorem c2_syncFlush (entries : List FlushEntry) (resolvedTs : Nat)
    (h : ∀ e ∈ entries, e.updateErr = false) :
    (syncFlushPass entries resolvedTs).2 =
      entries.map (fun e => (e.tableId, newResolvedTs resolvedTs)) ∧
    ((syncFlushPass entries resolvedTs).1 = true ↔
      ∀ e ∈ entries,
        e.sinkCkpt.equalOrGreater (newResolvedTs resolvedTs) = true) := by
  have go : ∀ (es : List FlushEntry) (fl : Bool)
      (calls : List (Int × ResolvedTs)),
      (∀ e ∈ es, e.updateErr = false) →
      syncFlushPassGo resolvedTs es fl calls =
        (fl && es.all (fun e =>
          e.sinkCkpt.equalOrGreater (newResolvedTs resolvedTs)),
         calls ++ es.map (fun e => (e.tableId, newResolvedTs resolvedTs))) := by
    intro es
    induction es with
    | nil => intro fl calls _; simp [syncFlushPassGo]
    | cons e rest ih =>
      intro fl calls hno
      have he : e.updateErr = false := hno e (List.mem_cons_self e rest)
      have hrest : ∀ x ∈ rest, x.updateErr = false := fun x hx =>
        hno x (List.mem_cons_of_mem e hx)
      simp only [syncFlushPassGo, he, Bool.false_eq_true, if_false]
      rw [ih _ _ hrest]
      by_cases hc : e.sinkCkpt.equalOrGreater (newResolvedTs resolvedTs) = true
      · simp [hc, List.append_assoc]
      · simp only [Bool.not_eq_true] at hc
        simp [hc, List.append_assoc]
  constructor
  · rw [syncFlushPass, go entries true [] h]
    simp
  · rw [syncFlushPass, go entries true [] h]
    simp [List.all_eq_true]

/-- Claim C2 witness. -/
theorem c2_syncFlush_witness :
    (∀ e ∈ [flushEntryC], e.updateErr = false) ∧
    ((syncFlushPass [flushEntryC] 9).1 = true ↔
      ∀ e ∈ [flushEntryC],
        e.sinkCkpt.equalOrGreater (newResolvedTs 9) = true) :=
  ⟨by decide, (c2_syncFlush [flushEntryC] 9 (by decide)).2⟩

/-- Claim C3 counterexample: a wrapper whose cached checkpoint is 100 and
whose sink is non-nil; the sink's `GetCheckpointTs` returns 50 at
clear-time, yet after `clear` the cached checkpoint is still 100, not the
sink's clear-time value. -/
theorem c3_counterexample :
    wrapperWithSink100.sinkNonNil = true ∧
    (tableSinkWrapper.clear wrapperWithSink100 (newResolvedTs 50) 7).checkpointTs
      ≠ newResolvedTs 50 := by
  decide

/-- Claim C3 (amended): for every wrapper whose sink field is non-null,
after `clear` the cached checkpoint equals the maximum (in the `Less`
order) of the previous cache and the value the downstream sink's
`GetCheckpointTs` returned at clear-time, and the sink field is null with
version 0. -/
theorem c3_clear (t : tableSinkWrapper) (sinkCkpt : ResolvedTs) (sy : Nat)
    (h : t.sinkNonNil = true) :
    (tableSinkWrapper.clear t sinkCkpt sy).checkpointTs =
      (if t.checkpointTs.less sinkCkpt then sinkCkpt else t.checkpointTs) ∧
    (tableSinkWrapper.clear t sinkCkpt sy).sinkNonNil = false ∧
    (tableSinkWrapper.clear t sinkCkpt sy).sinkVersion = 0 := by
  unfold tableSinkWrapper.clear
  simp [h]

/-- Claim C3 witness. -/
theorem c3_clear_witness :
    wrapperWithSink100.sinkNonNil = true ∧
    ((tableSinkWrapper.clear wrapperWithSink100 (newResolvedTs 130) 7).checkpointTs =
      (if wrapperWithSink100.checkpointTs.less (newResolvedTs 130) then
        newResolvedTs 130 else wrapperWithSink100.checkpointTs) ∧
    (tableSinkWrapper.clear wrapperWithSink100 (newResolvedTs 130) 7).sinkNonNil
      = false ∧
    (tableSinkWrapper.clear wrapperWithSink100 (newResolvedTs 130) 7).sinkVersion
      = 0) :=
  ⟨by decide, c3_clear wrapperWithSink100 (newResolvedTs 130) 7 (by decide)⟩

/-- Claim C6 counterexample: with a null sink, `appendRowChangedEvents`
returns the error built by `NewSinkInternalError` — its kind is
SinkInternal, not the SinkClosed kind the claim names; and with a non-null
sink, `updateResolvedTs` can still return an error (the downstream sink's
own), so "error exactly when the sink field is null" fails too. -/
theorem c6_counterexample :
    (tableSinkWrapper.appendRowChangedEvents
        (newTableSinkWrapper TableState.preparing 5) [1]).1.map SinkError.kind
      = some ErrorKind.sinkInternal ∧
    ErrorKind.sinkInternal ≠ ErrorKind.sinkClosed ∧
    ((tableSinkWrapper.updateResolvedTs wrapperWithSink100 (newResolvedTs 120)
        (some (newSinkInternalError msgOracleFailed))).1 ≠ none ∧
      wrapperWithSink100.sinkNonNil = true) := by
  decide

/-- Claim C6 (amended): `appendRowChangedEvents` errs exactly when the
wrapper's sink field is null, and that error (shared with
`updateResolvedTs` on a null sink) is the one `NewSinkInternalError`
builds, of kind SinkInternal with message "table sink cleared";
`updateResolvedTs` on a non-null sink returns whatever the downstream
`UpdateResolvedTs` returns; with a non-null sink both operations forward
to the downstream sink and `appendRowChangedEvents` succeeds. -/
theorem c6_sink_errors (t : tableSinkWrapper) (evs : List Nat)
    (ts : ResolvedTs) (dErr : Option SinkError) :
    ((tableSinkWrapper.appendRowChangedEvents t evs).1 ≠ none ↔
      t.sinkNonNil = false) ∧
    (t.sinkNonNil = false →
      (tableSinkWrapper.appendRowChangedEvents t evs).1 =
        some (newSinkInternalError msgTableSinkCleared) ∧
      (tableSinkWrapper.updateResolvedTs t ts dErr).1 =
        some (newSinkInternalError msgTableSinkCleared)) ∧
    (t.sinkNonNil = true →
      (tableSinkWrapper.appendRowChangedEvents t evs).1 = none ∧
      (tableSinkWrapper.appendRowChangedEvents t evs).2.sinkEvents =
        t.sinkEvents ++ evs ∧
      (tableSinkWrapper.updateResolvedTs t ts dErr).1 = dErr ∧
      (tableSinkWrapper.updateResolvedTs t ts dErr).2.sinkResolvedCalls =
        t.sinkResolvedCalls ++ [ts]) := by
  unfold tableSinkWrapper.appendRowChangedEvents tableSinkWrapper.updateResolvedTs
  by_cases hs : t.sinkNonNil = true
  · simp [hs]
  · simp only [Bool.not_eq_true] at hs
    simp [hs, newSinkInternalError]

/-- Claim C6 witness. -/
theorem c6_sink_errors_witness :
    ((newTableSinkWrapper TableState.preparing 5).sinkNonNil = false) ∧
    ((tableSinkWrapper.appendRowChangedEvents
        (newTableSinkWrapper TableState.preparing 5) [1, 2]).1 =
      some (newSinkInternalError msgTableSinkCleared) ∧
    (tableSinkWrapper.updateResolvedTs (newTableSinkWrapper TableState.preparing 5)
        (newResolvedTs 6) none).1 =
      some (newSinkInternalError msgTableSinkCleared)) :=
  ⟨by decide,
   (c6_sink_errors (newTableSinkWrapper TableState.preparing 5) [1, 2]
     (newResolvedTs 6) none).2.1 (by decide)⟩



/-- Claim C4: on a ledger with strictly ascending last-positions, with
`idx` the first index whose last-position exceeds `upperBound` and
`idx > 0`: if the events of records `[0, idx)` sum to at least `minEvents`
those records are dropped and the call returns `true`; otherwise the
summed events are folded into record `idx-1`, the records before it are
dropped, and the call returns `false`. -/
theorem c4_cleanRangeEventCounts (c : List rangeEventCount)
    (ub : Position) (minEvents : Int)
    (hasc : ascLastPos c = true) (hpos : 0 < rangeIdx c ub)
    (hlt : rangeIdx c ub - 1 < c.length) :
    (((c.take (rangeIdx c ub)).map (fun r => r.events)).sum ≥ minEvents →
      cleanRangeEventCounts c ub minEvents = (true, c.drop (rangeIdx c ub))) ∧
    (((c.take (rangeIdx c ub)).map (fun r => r.events)).sum < minEvents →
      cleanRangeEventCounts c ub minEvents =
        (false,
          { c.get ⟨rangeIdx c ub - 1, hlt⟩ with
              events := ((c.take (rangeIdx c ub)).map (fun r => r.events)).sum }
            :: c.drop (rangeIdx c ub))) := by
  clear hasc
  have hdrop : c.drop (rangeIdx c ub - 1) =
      c.get ⟨rangeIdx c ub - 1, hlt⟩ :: c.drop (rangeIdx c ub) := by
    rw [List.drop_eq_getElem_cons hlt, List.get_eq_getElem]
    have h1 : rangeIdx c ub - 1 + 1 = rangeIdx c ub := by omega
    rw [h1]
  constructor
  · intro hge
    unfold cleanRangeEventCounts
    rw [if_neg (show ¬(c.length = 0 ∨ rangeIdx c ub = 0) by omega),
      if_pos hge]
  · intro hless
    unfold cleanRangeEventCounts
    rw [if_neg (show ¬(c.length = 0 ∨ rangeIdx c ub = 0) by omega),
      if_neg (show
        ¬((c.take (rangeIdx c ub)).map (fun r => r.events)).sum ≥ minEvents
        by omega),
      hdrop]

/-- Claim C4 witness: ledger `[recC, recD]`, upper bound between the two
records, minimum 10 (merge branch exercised through the theorem). -/
theorem c4_cleanRangeEventCounts_witness :
    (ascLastPos [recC, recD] = true ∧
      0 < rangeIdx [recC, recD] { commitTs := 15, startTs := 0 } ∧
      rangeIdx [recC, recD] { commitTs := 15, startTs := 0 } - 1 <
        [recC, recD].length) ∧
    ((([recC, recD].take
        (rangeIdx [recC, recD] { commitTs := 15, startTs := 0 })).map
          (fun r => r.events)).sum ≥ 10 →
      cleanRangeEventCounts [recC, recD] { commitTs := 15, startTs := 0 } 10 =
        (true, [recC, recD].drop
          (rangeIdx [recC, recD] { commitTs := 15, startTs := 0 }))) :=
  ⟨by decide,
   (c4_cleanRangeEventCounts [recC, recD] { commitTs := 15, startTs := 0 } 10
     (by decide) (by decide) (by decide)).1⟩

/-- Claim C5: on a non-empty ledger, `update(newCount)` leaves the ledger
unchanged unless `newCount.lastPos` strictly exceeds the last record's
last-position; when it does, a physical-ms difference (between the last
record's first-position and `newCount`'s last-position) strictly below
1000 ms merges into the last record, and a difference of at least 1000 ms
(including exactly 1000 ms) appends a new record. -/
theorem c5_updateRangeEventCounts (c : List rangeEventCount)
    (n last : rangeEventCount) (hlast : c.getLast? = some last) :
    (¬ last.lastPos.compare n.lastPos = Ordering.lt →
      updateRangeEventCounts c n = c) ∧
    (last.lastPos.compare n.lastPos = Ordering.lt →
      (extractPhysical n.lastPos.commitTs -
          extractPhysical last.firstPos.commitTs < 1000 →
        updateRangeEventCounts c n =
          c.dropLast ++
            [{ last with
                lastPos := n.lastPos
                events := last.events + n.events }]) ∧
      (extractPhysical n.lastPos.commitTs -
          extractPhysical last.firstPos.commitTs ≥ 1000 →
        updateRangeEventCounts c n = c ++ [n])) := by
  constructor
  · intro hcmp
    simp only [updateRangeEventCounts, hlast]
    rw [if_neg hcmp]
  · intro hcmp
    constructor
    · intro hdiff
      simp only [updateRangeEventCounts, hlast]
      rw [if_pos hcmp, if_neg (by omega)]
    · intro hdiff
      simp only [updateRangeEventCounts, hlast]
      rw [if_pos hcmp, if_pos (by omega)]

/-- Claim C5 witness: ledger `[recA]` and a new count 1000 ms later
(boundary case: exactly 1000 ms appends). -/
theorem c5_updateRangeEventCounts_witness :
    ([recA].getLast? = some recA) ∧
    (recA.lastPos.compare recB.lastPos = Ordering.lt →
      (extractPhysical recB.lastPos.commitTs -
          extractPhysical recA.firstPos.commitTs < 1000 →
        updateRangeEventCounts [recA] recB =
          [recA].dropLast ++
            [{ recA with
                lastPos := recB.lastPos
                events := recA.events + recB.events }]) ∧
      (extractPhysical recB.lastPos.commitTs -
          extractPhysical recA.firstPos.commitTs ≥ 1000 →
        updateRangeEventCounts [recA] recB = [recA] ++ [recB])) :=
  ⟨by decide, (c5_updateRangeEventCounts [recA] recB recA (by decide)).2⟩



theorem ddlsSortedLe_head : ∀ (l : List Nat) (a : Nat),
    ddlsSortedLe (a :: l) = true → ∀ b ∈ l, a ≤ b := by
  intro l
  induction l with
  | nil =>
    intro a _ b hb
    cases hb
  | cons c rest ih =>
    intro a h b hb
    have h1 : a ≤ c ∧ ddlsSortedLe (c :: rest) = true := by
      simpa [ddlsSortedLe] using h
    rcases List.mem_cons.mp hb with rfl | hb2
    · exact h1.1
    · exact le_trans h1.1 (ih c h1.2 b hb2)

theorem ddlsSortedLe_tail (l : List Nat) (a : Nat)
    (h : ddlsSortedLe (a :: l) = true) : ddlsSortedLe l = true := by
  cases l with
  | nil => rfl
  | cons c rest =>
    have h1 : a ≤ c ∧ ddlsSortedLe (c :: rest) = true := by
      simpa [ddlsSortedLe] using h
    exact h1.2

theorem ddlsSortedLe_append : ∀ (l : List Nat) (d : Nat),
    ddlsSortedLe l = true → (∀ x ∈ l, x ≤ d) →
    ddlsSortedLe (l ++ [d]) = true := by
  intro l
  induction l with
  | nil =>
    intro d _ _
    rfl
  | cons a rest ih =>
    intro d hs hb
    cases rest with
    | nil =>
      simp [ddlsSortedLe, hb a (List.mem_cons_self a [])]
    | cons b rest2 =>
      have h1 : a ≤ b ∧ ddlsSortedLe (b :: rest2) = true := by
        simpa [ddlsSortedLe] using hs
      have ih2 := ih d h1.2 (fun x hx => hb x (List.mem_cons_of_mem a hx))
      simpa [ddlsSortedLe, h1.1] using ih2

theorem forall₂_le_refl : ∀ l : List Nat,
    List.Forall₂ (fun a b => a ≤ b) l l := by
  intro l
  induction l with
  | nil => exact List.Forall₂.nil
  | cons a rest ih => exact List.Forall₂.cons le_rfl ih

theorem forall₂_le_set : ∀ (l : List Nat) (i ts : Nat),
    l.getD i 0 ≤ ts → List.Forall₂ (fun a b => a ≤ b) l (l.set i ts) := by
  intro l
  induction l with
  | nil =>
    intro i ts _
    exact List.Forall₂.nil
  | cons a rest ih =>
    intro i ts h
    cases i with
    | zero =>
      exact List.Forall₂.cons (by simpa using h) (forall₂_le_refl rest)
    | succ j =>
      exact List.Forall₂.cons le_rfl (ih j ts (by simpa using h))

theorem foldlMin_le : ∀ {l1 l2 : List Nat},
    List.Forall₂ (fun a b => a ≤ b) l1 l2 →
    ∀ a b : Nat, a ≤ b → List.foldl min a l1 ≤ List.foldl min b l2 := by
  intro l1 l2 h
  induction h with
  | nil =>
    intro a b hab
    simpa using hab
  | cons hxy _ ih =>
    intro a b hab
    simp only [List.foldl]
    exact ih _ _ (by omega)

theorem consumerInv_iff (s : ConsumerState) : consumerInv s = true ↔
    (s.globalResolvedTs ≤ getMinPartitionResolvedTs s.parts ∧
     ddlsSortedLe s.ddls = true ∧
     (∀ d ∈ s.ddls, s.globalResolvedTs ≤ d) ∧
     ddlMaxOk s = true) := by
  unfold consumerInv
  simp [Bool.and_eq_true, List.all_eq_true, and_assoc]



/-- Claim C7 counterexample: with one partition advanced to 100 and the
global resolved-ts at 100, a DDL with commit-ts 50 is accepted by
`appendDDL` (its queue was empty), and the next driver tick adjusts the
minimum down to 50 and hits the `globalResolvedTs > minPartitionResolvedTs`
panic — so under per-partition monotonicity alone the panic IS reachable. -/
theorem c7_counterexample :
    crun (some (newConsumer 1)) [CAction.resolved 0 100, CAction.tick] =
      some { globalResolvedTs := 100, parts := [100], ddls := [],
             ddlMax := none } ∧
    crun (some (newConsumer 1))
      [CAction.resolved 0 100, CAction.tick, CAction.ddl 50, CAction.tick] =
      none := by
  decide

/-- Claim C7 (amended): a driver tick panics exactly when the global
resolved-ts exceeds the (DDL-)adjusted minimum partition resolved-ts; on
a consumer state satisfying the loop invariant the tick never panics, sets
the global resolved-ts to `max(old, adjustedMin)` (hence never decreases
it) and preserves the invariant; resolved messages (whose handler enforces
per-partition monotonicity) preserve the invariant, as does `appendDDL`
provided the DDL's commit-ts is at least the current global resolved-ts;
the initial consumer satisfies the invariant. -/
theorem c7_globalResolvedTs_monotonic (s : ConsumerState)
    (h : consumerInv s = true) :
    (∀ s3 : ConsumerState,
      tick s3 = none ↔ adjustedMin s3 < s3.globalResolvedTs) ∧
    tick s ≠ none ∧
    (∀ s2, tick s = some s2 →
      s2.globalResolvedTs = max s.globalResolvedTs (adjustedMin s) ∧
      s.globalResolvedTs ≤ s2.globalResolvedTs ∧
      consumerInv s2 = true) ∧
    (∀ i ts, consumerInv (consumeResolved s i ts) = true) ∧
    (∀ d s2, s.globalResolvedTs ≤ d → appendDDL s d = some s2 →
      consumerInv s2 = true) ∧
    (∀ n, consumerInv (newConsumer n) = true) := by
  obtain ⟨h1, h2, h3, h4⟩ := (consumerInv_iff s).mp h
  have hadj : adjustedMin s ≤ getMinPartitionResolvedTs s.parts := by
    unfold adjustedMin
    cases hd : s.ddls with
    | nil => exact le_rfl
    | cons d rest =>
      by_cases hdle : d ≤ getMinPartitionResolvedTs s.parts
      · simpa [hdle] using hdle
      · simp [hdle]
  have hle : s.globalResolvedTs ≤ adjustedMin s := by
    unfold adjustedMin
    cases hd : s.ddls with
    | nil => exact h1
    | cons d rest =>
      by_cases hdle : d ≤ getMinPartitionResolvedTs s.parts
      · simpa [hdle] using h3 d (by rw [hd]; exact List.mem_cons_self d rest)
      · simpa [hdle] using h1
  refine ⟨?_, ?_, ?_, ?_, ?_, ?_⟩
  · intro s3
    unfold tick
    by_cases hgt : adjustedMin s3 < s3.globalResolvedTs
    · simp [hgt]
    · simp [hgt]
  · unfold tick
    rw [if_neg (by omega)]
    exact Option.some_ne_none _
  · intro s2 hs2
    unfold tick at hs2
    rw [if_neg (by omega), Option.some.injEq] at hs2
    subst hs2
    refine ⟨rfl, le_max_left _ _, ?_⟩
    rw [consumerInv_iff]
    cases hd : s.ddls with
    | nil =>
      dsimp only
      refine ⟨max_le h1 hadj, rfl, ?_, ?_⟩
      · intro x hx
        simp at hx
      · unfold ddlMaxOk
        dsimp only
        cases s.ddlMax with
        | none => rfl
        | some m => rfl
    | cons d rest =>
      dsimp only
      by_cases hdle : d ≤ getMinPartitionResolvedTs s.parts
      · rw [if_pos hdle]
        have hmax : adjustedMin s = d := by
          unfold adjustedMin
          rw [hd]
          simp [hdle]
        refine ⟨max_le h1 hadj, ?_, ?_, ?_⟩
        · exact ddlsSortedLe_tail rest d (hd ▸ h2)
        · intro x hx
          have hgx : s.globalResolvedTs ≤ x :=
            h3 x (by rw [hd]; exact List.mem_cons_of_mem d hx)
          have hdx : d ≤ x := ddlsSortedLe_head rest d (hd ▸ h2) x hx
          rw [hmax]
          exact max_le hgx hdx
        · unfold ddlMaxOk
          dsimp only
          cases hM : s.ddlMax with
          | none =>
            unfold ddlMaxOk at h4
            rw [hM, hd] at h4
            simp at h4
          | some m =>
            unfold ddlMaxOk at h4
            rw [hM, hd] at h4
            dsimp only
            simp only [List.all_eq_true] at h4 ⊢
            intro x hx
            exact h4 x (List.mem_cons_of_mem d hx)
      · rw [if_neg hdle]
        have hmax : adjustedMin s = getMinPartitionResolvedTs s.parts := by
          unfold adjustedMin
          rw [hd]
          simp [hdle]
        refine ⟨max_le h1 hadj, ?_, ?_, ?_⟩
        · exact hd ▸ h2
        · intro x hx
          have hgx : s.globalResolvedTs ≤ x := h3 x (hd ▸ hx)
          have hmx : getMinPartitionResolvedTs s.parts ≤ x := by
            rcases List.mem_cons.mp hx with rfl | hx2
            · omega
            · have hdx : d ≤ x := ddlsSortedLe_head rest d (hd ▸ h2) x hx2
              omega
          rw [hmax]
          exact max_le hgx hmx
        · unfold ddlMaxOk
          dsimp only
          cases hM : s.ddlMax with
          | none =>
            unfold ddlMaxOk at h4
            rw [hM, hd] at h4
            simp at h4
          | some m =>
            unfold ddlMaxOk at h4
            rw [hM, hd] at h4
            dsimp only
            exact h4
  · intro i ts
    unfold consumeResolved
    by_cases hc2 : ts < s.globalResolvedTs ∨ ts < s.parts.getD i 0
    · rw [if_pos hc2]
      exact h
    · rw [if_neg hc2]
      push_neg at hc2
      rw [consumerInv_iff]
      refine ⟨?_, h2, h3, h4⟩
      have hmm : getMinPartitionResolvedTs s.parts ≤
          getMinPartitionResolvedTs (s.parts.set i ts) :=
        foldlMin_le (forall₂_le_set s.parts i ts hc2.2) maxUint64 maxUint64
          le_rfl
      exact le_trans h1 hmm
  · intro d s2 hged happ
    unfold appendDDL at happ
    cases hM : s.ddlMax with
    | none =>
      rw [hM, Option.some.injEq] at happ
      subst happ
      have hnil : s.ddls = [] := by
        unfold ddlMaxOk at h4
        rw [hM] at h4
        simpa using h4
      rw [consumerInv_iff]
      refine ⟨h1, ?_, ?_, ?_⟩
      · rw [hnil]
        rfl
      · intro x hx
        rw [hnil] at hx
        simp only [List.nil_append, List.mem_singleton] at hx
        subst hx
        exact hged
      · unfold ddlMaxOk
        rw [hnil]
        simp
    | some m =>
      rw [hM] at happ
      dsimp only at happ
      by_cases hdm : d < m
      · rw [if_pos hdm] at happ
        cases happ
      · rw [if_neg hdm, Option.some.injEq] at happ
        subst happ
        have hbound : ∀ x ∈ s.ddls, x ≤ m := by
          unfold ddlMaxOk at h4
          rw [hM] at h4
          simp only [List.all_eq_true, decide_eq_true_eq] at h4
          exact h4
        rw [consumerInv_iff]
        refine ⟨h1, ?_, ?_, ?_⟩
        · exact ddlsSortedLe_append s.ddls d h2
            (fun x hx => le_trans (hbound x hx) (by omega))
        · intro x hx
          rcases List.mem_append.mp hx with hx1 | hx2
          · exact h3 x hx1
          · simp only [List.mem_singleton] at hx2
            subst hx2
            exact hged
        · unfold ddlMaxOk
          simp only [List.all_eq_true, decide_eq_true_eq]
          intro x hx
          rcases List.mem_append.mp hx with hx1 | hx2
          · exact le_trans (hbound x hx1) (by omega)
          · simp only [List.mem_singleton] at hx2
            omega
  · intro n
    rw [consumerInv_iff]
    refine ⟨Nat.zero_le _, rfl, ?_, rfl⟩
    intro x hx
    cases hx

/-- Claim C7 witness. -/
theorem c7_witness :
    consumerInv (newConsumer 2) = true ∧ tick (newConsumer 2) ≠ none :=
  ⟨by decide,
   (c7_globalResolvedTs_monotonic (newConsumer 2) (by decide)).2.1⟩



theorem take_len_takeWhile {α : Type} (p : α → Bool) :
    ∀ l : List α, l.take (l.takeWhile p).length = l.takeWhile p := by
  intro l
  induction l with
  | nil => rfl
  | cons a rest ih =>
    by_cases hp : p a = true
    · simp [List.takeWhile_cons, hp, ih]
    · simp only [Bool.not_eq_true] at hp
      simp [List.takeWhile_cons, hp]

theorem drop_len_takeWhile {α : Type} (p : α → Bool) :
    ∀ l : List α, l.drop (l.takeWhile p).length = l.dropWhile p := by
  intro l
  induction l with
  | nil => rfl
  | cons a rest ih =>
    by_cases hp : p a = true
    · simp [List.takeWhile_cons, List.dropWhile_cons, hp, ih]
    · simp only [Bool.not_eq_true] at hp
      simp [List.takeWhile_cons, List.dropWhile_cons, hp]

theorem dropWhile_head_not {α : Type} (p : α → Bool) :
    ∀ (l : List α) (x : α) (rest : List α),
    l.dropWhile p = x :: rest → p x = false := by
  intro l
  induction l with
  | nil =>
    intro x rest h
    cases h
  | cons a l2 ih =>
    intro x rest h
    by_cases hpa : p a = true
    · rw [List.dropWhile_cons, if_pos hpa] at h
      exact ih x rest h
    · rw [List.dropWhile_cons, if_neg hpa] at h
      injection h with h1 h2
      subst h1
      simpa using hpa

/-- Claim C8 counterexample: with two buffered events of equal commit-ts 5
(`evA` arriving before `evB`), the outcome flushing `[evB, evA]` is
admitted by `Resolve` (the unstable `sort.Slice` may order equal keys
either way), while the claim's stable order is `[evA, evB]`. -/
theorem c8_counterexample :
    ResolveOutcome [evA, evB] 5 [evB, evA] [] ∧
    (resolveSpecStable [evA, evB] 5).1 = [evA, evB] ∧
    [evB, evA] ≠ [evA, evB] :=
  ⟨⟨[evB, evA], by decide, by decide, by decide, by decide⟩,
   by decide, by decide⟩

/-- Claim C8 (amended): for every event group buffer and resolved-ts,
every outcome of `Resolve(ts)` returns exactly (as a multiset) the
buffered events with commit-ts at most `ts`, sorted by commit-ts (equal
commit-ts events in unspecified order, `sort.Slice` being unstable), and
retains exactly (as a multiset) the events with commit-ts above `ts`. -/
theorem c8_resolve (buf : List RowChangedEvent) (ts : Nat)
    (flushed retained : List RowChangedEvent)
    (h : ResolveOutcome buf ts flushed retained) :
    List.Perm flushed (buf.filter (fun e => decide (e.commitTs ≤ ts))) ∧
    List.Perm retained (buf.filter (fun e => decide (ts < e.commitTs))) ∧
    sortedByCommitTs flushed ∧
    (∀ e ∈ flushed, e.commitTs ≤ ts) ∧
    (∀ e ∈ retained, ts < e.commitTs) := by
  obtain ⟨s, hperm, hsort, hf, hr⟩ := h
  have hf2 : flushed = s.takeWhile (fun e => !(decide (e.commitTs > ts))) := by
    rw [hf]
    exact take_len_takeWhile _ s
  have hr2 : retained = s.dropWhile (fun e => !(decide (e.commitTs > ts))) := by
    rw [hr]
    exact drop_len_takeWhile _ s
  have hsplit : s.takeWhile (fun e => !(decide (e.commitTs > ts))) ++
      s.dropWhile (fun e => !(decide (e.commitTs > ts))) = s :=
    List.takeWhile_append_dropWhile _ s
  have hmemf : ∀ e ∈ s.takeWhile (fun e => !(decide (e.commitTs > ts))),
      e.commitTs ≤ ts := by
    intro e he
    have h2 := List.mem_takeWhile_imp he
    simp at h2
    omega
  have hmemr : ∀ e ∈ s.dropWhile (fun e => !(decide (e.commitTs > ts))),
      ts < e.commitTs := by
    cases hdw : s.dropWhile (fun e => !(decide (e.commitTs > ts))) with
    | nil =>
      intro e he
      cases he
    | cons x rest =>
      have hpx := dropWhile_head_not _ s x rest hdw
      simp at hpx
      have hpair : List.Pairwise (fun a b => a.commitTs ≤ b.commitTs)
          (x :: rest) := by
        rw [← hdw]
        rw [← hsplit] at hsort
        exact (List.pairwise_append.mp hsort).2.1
      intro e he
      rcases List.mem_cons.mp he with rfl | he2
      · exact hpx
      · exact lt_of_lt_of_le hpx ((List.pairwise_cons.mp hpair).1 e he2)
  have hfilf : s.filter (fun e => decide (e.commitTs ≤ ts)) =
      s.takeWhile (fun e => !(decide (e.commitTs > ts))) := by
    conv_lhs => rw [← hsplit]
    rw [List.filter_append,
      List.filter_eq_self.mpr (fun a ha => by
        simpa using hmemf a ha),
      List.filter_eq_nil_iff.mpr (fun a ha => by
        simpa using Nat.not_le.mpr (hmemr a ha))]
    simp
  have hfilr : s.filter (fun e => decide (ts < e.commitTs)) =
      s.dropWhile (fun e => !(decide (e.commitTs > ts))) := by
    conv_lhs => rw [← hsplit]
    rw [List.filter_append,
      List.filter_eq_nil_iff.mpr (fun a ha => by
        simpa using Nat.not_lt.mpr (hmemf a ha)),
      List.filter_eq_self.mpr (fun a ha => by
        simpa using hmemr a ha)]
    simp
  refine ⟨?_, ?_, ?_, ?_, ?_⟩
  · rw [hf2, ← hfilf]
    exact hperm.filter _
  · rw [hr2, ← hfilr]
    exact hperm.filter _
  · rw [hf2]
    exact hsort.sublist (List.takeWhile_sublist _)
  · intro e he
    rw [hf2] at he
    exact hmemf e he
  · intro e he
    rw [hr2] at he
    exact hmemr e he

/-- Claim C8 witness. -/
theorem c8_resolve_witness :
    ResolveOutcome [evA, evB] 5 [evA, evB] [] ∧
    List.Perm [evA, evB]
      ([evA, evB].filter (fun e => decide (e.commitTs ≤ 5))) :=
  ⟨⟨[evA, evB], by decide, by decide, by decide, by decide⟩,
   (c8_resolve [evA, evB] 5 [evA, evB] []
     ⟨[evA, evB], by decide, by decide, by decide, by decide⟩).1⟩

/-- Claim C9: `handleRowChangedEvents` returns exactly the `Row` fields of
the events that are non-nil, have a non-nil row, and have at least one
column or pre-column, preserving input order; the returned size is the sum
of `ApproximateBytes` over the returned rows; an input of only nil or
empty-row events yields an empty list and size 0. -/
theorem c9_handleRowChangedEvents (events : List (Option PolymorphicEvent)) :
    (handleRowChangedEvents events).1 = events.filterMap rowOf ∧
    (handleRowChangedEvents events).2 =
      ((events.filterMap rowOf).map (fun r => r.approximateBytes)).sum ∧
    ((∀ e ∈ events, goodEvent e = false) →
      handleRowChangedEvents events = ([], 0)) := by
  induction events with
  | nil => exact ⟨rfl, rfl, fun _ => rfl⟩
  | cons oe rest ih =>
    obtain ⟨ih1, ih2, ih3⟩ := ih
    cases oe with
    | none =>
      refine ⟨?_, ?_, ?_⟩
      · simpa [handleRowChangedEvents, List.filterMap_cons, rowOf] using ih1
      · simpa [handleRowChangedEvents, List.filterMap_cons, rowOf] using ih2
      · intro hall
        have := ih3 (fun e he => hall e (List.mem_cons_of_mem _ he))
        simpa [handleRowChangedEvents] using this
    | some e =>
      cases he : e.row with
      | none =>
        refine ⟨?_, ?_, ?_⟩
        · simpa [handleRowChangedEvents, List.filterMap_cons, rowOf, he]
            using ih1
        · simpa [handleRowChangedEvents, List.filterMap_cons, rowOf, he]
            using ih2
        · intro hall
          have := ih3 (fun x hx => hall x (List.mem_cons_of_mem _ hx))
          simpa [handleRowChangedEvents, he] using this
      | some r =>
        by_cases hc : r.columns = 0 ∧ r.preColumns = 0
        · refine ⟨?_, ?_, ?_⟩
          · simpa [handleRowChangedEvents, List.filterMap_cons, rowOf, he, hc]
              using ih1
          · simpa [handleRowChangedEvents, List.filterMap_cons, rowOf, he, hc]
              using ih2
          · intro hall
            have := ih3 (fun x hx => hall x (List.mem_cons_of_mem _ hx))
            simpa [handleRowChangedEvents, he, hc] using this
        · refine ⟨?_, ?_, ?_⟩
          · simp only [handleRowChangedEvents, he, if_neg hc,
              List.filterMap_cons, rowOf]
            simpa using ih1
          · simp only [handleRowChangedEvents, he, if_neg hc,
              List.filterMap_cons, rowOf]
            simp [ih2]
          · intro hall
            have hbad := hall (some e) (List.mem_cons_self _ _)
            simp [goodEvent, rowOf, he, hc] at hbad

/-- Claim C9 witness. -/
theorem c9_handleRowChangedEvents_witness :
    (∀ e ∈ [none, some pevNilRow, some pevEmptyRow], goodEvent e = false) ∧
    handleRowChangedEvents [none, some pevNilRow, some pevEmptyRow] =
      ([], 0) :=
  ⟨by decide,
   (c9_handleRowChangedEvents [none, some pevNilRow, some pevEmptyRow]).2.2
     (by decide)⟩



theorem parseName_cons_ne (c : Char) (l : List Char) (h : ¬ c = bq) :
    parseName (c :: l) = (parseName l).map (fun pr => (c :: pr.1, pr.2)) := by
  cases l with
  | nil => simp [parseName, h]
  | cons c2 l2 => simp [parseName, h]

theorem parseName_bq_bq (l : List Char) :
    parseName (bq :: bq :: l) =
      (parseName l).map (fun pr => (bq :: pr.1, pr.2)) := by
  simp [parseName]

theorem parseName_bq_close (c : Char) (l : List Char) (h : ¬ c = bq) :
    parseName (bq :: c :: l) = some ([], c :: l) := by
  simp [parseName, h]

theorem parseName_bq_nil : parseName [bq] = some ([], []) := by
  simp [parseName]

theorem parseName_esc : ∀ (s r : List Char), headNotBq r →
    parseName (escName s ++ bq :: r) = some (s, r) := by
  intro s
  induction s with
  | nil =>
    intro r hr
    cases r with
    | nil => exact parseName_bq_nil
    | cons c2 rest2 =>
      have hc2 : ¬ c2 = bq := hr
      exact parseName_bq_close c2 rest2 hc2
  | cons a s2 ih =>
    intro r hr
    by_cases ha : a = bq
    · subst ha
      show parseName (escName (bq :: s2) ++ bq :: r) = _
      rw [show escName (bq :: s2) = bq :: bq :: escName s2 from by
        simp [escName]]
      rw [List.cons_append, List.cons_append, parseName_bq_bq, ih r hr]
      rfl
    · show parseName (escName (a :: s2) ++ bq :: r) = _
      rw [show escName (a :: s2) = a :: escName s2 from by simp [escName, ha]]
      rw [List.cons_append, parseName_cons_ne a _ ha, ih r hr]
      rfl

theorem charDigit_digitChar (d : Nat) (h : d < 10) :
    charDigit (digitChar d) = d := by
  interval_cases d <;> decide

theorem digitChar_ne_dash (d : Nat) (h : d < 10) : ¬ digitChar d = '-' := by
  interval_cases d <;> decide

theorem digitChar_ne_bq (d : Nat) (h : d < 10) : ¬ digitChar d = bq := by
  interval_cases d <;> decide

theorem natChars_mem (n : Nat) :
    ∀ c ∈ natChars n, ∃ d, d < 10 ∧ c = digitChar d := by
  intro c hc
  unfold natChars at hc
  by_cases h : n = 0
  · rw [if_pos h] at hc
    simp at hc
    exact ⟨0, by omega, by rw [hc]; rfl⟩
  · rw [if_neg h] at hc
    obtain ⟨d, hd, rfl⟩ := List.mem_map.mp hc
    exact ⟨d, Nat.digits_lt_base (by norm_num) (List.mem_reverse.mp hd), rfl⟩

theorem natChars_ne_nil (n : Nat) : natChars n ≠ [] := by
  unfold natChars
  by_cases h : n = 0
  · simp [h]
  · rw [if_neg h]
    simp [List.map_eq_nil_iff, Nat.digits_ne_nil_iff_ne_zero.mpr h]

theorem parseNat_natChars (n : Nat) : parseNatChars (natChars n) = n := by
  by_cases h : n = 0
  · subst h
    decide
  · rw [natChars, if_neg h]
    unfold parseNatChars
    rw [List.map_map]
    have hcongr : List.map (charDigit ∘ digitChar) (Nat.digits 10 n).reverse =
        List.map id (Nat.digits 10 n).reverse :=
      List.map_congr_left (fun d hd =>
        charDigit_digitChar d
          (Nat.digits_lt_base (by norm_num) (List.mem_reverse.mp hd)))
    rw [hcongr, List.map_id, List.reverse_reverse, Nat.ofDigits_digits]

theorem parseInt_intChars (p : Int) (hp : p ≠ 0) :
    parseIntChars (intChars p) = p := by
  by_cases hneg : p < 0
  · rw [intChars, if_pos hneg]
    have hstep : parseIntChars ('-' :: natChars p.natAbs) =
        -(parseNatChars (natChars p.natAbs) : Int) := by
      simp [parseIntChars]
    rw [hstep, parseNat_natChars]
    omega
  · rw [intChars, if_neg hneg]
    cases hnc : natChars p.toNat with
    | nil => exact absurd hnc (natChars_ne_nil _)
    | cons c cs =>
      obtain ⟨d, hd10, rfl⟩ :=
        natChars_mem p.toNat c (hnc ▸ List.mem_cons_self c cs)
      have hstep : parseIntChars (digitChar d :: cs) =
          (parseNatChars (digitChar d :: cs) : Int) := by
        simp [parseIntChars, digitChar_ne_dash d hd10]
      rw [hstep, ← hnc, parseNat_natChars]
      omega

theorem takeWhile_ne_bq : ∀ (l : List Char), (∀ c ∈ l, ¬ c = bq) →
    (l ++ [bq]).takeWhile (fun ch => decide (ch ≠ bq)) = l := by
  intro l
  induction l with
  | nil =>
    intro _
    decide
  | cons c rest ih =>
    intro h
    rw [List.cons_append, List.takeWhile_cons]
    rw [if_pos (by simpa using h c (List.mem_cons_self c rest))]
    rw [ih (fun x hx => h x (List.mem_cons_of_mem c hx))]

theorem intChars_no_bq (p : Int) : ∀ c ∈ intChars p, ¬ c = bq := by
  intro c hc
  unfold intChars at hc
  by_cases hneg : p < 0
  · rw [if_pos hneg] at hc
    rcases List.mem_cons.mp hc with rfl | hc2
    · decide
    · obtain ⟨d, hd, rfl⟩ := natChars_mem _ c hc2
      exact digitChar_ne_bq d hd
  · rw [if_neg hneg] at hc
    obtain ⟨d, hd, rfl⟩ := natChars_mem _ c hc
    exact digitChar_ne_bq d hd

theorem decodeKey_keyOf (s t : List Char) (p : Int) :
    decodeKey (keyOf s t p) = some (s, t, p) := by
  have hdot : headNotBq ('.' :: bq :: (escName t ++ [bq])) := by
    show ('.' : Char) ≠ bq
    decide
  by_cases hp : p = 0
  · subst hp
    rw [keyOf, if_pos rfl, quoteSchema]
    have e1 : parseName (escName s ++ bq ::
        ('.' :: bq :: (escName t ++ [bq]))) =
        some (s, '.' :: bq :: (escName t ++ [bq])) :=
      parseName_esc s _ hdot
    have e2 : parseName (escName t ++ [bq]) = some (t, []) := by
      rw [show escName t ++ [bq] = escName t ++ bq :: [] from rfl]
      exact parseName_esc t [] trivial
    simp [decodeKey, e1, e2]
  · have hkey : keyOf s t p = bq :: (escName s ++ bq ::
        ('.' :: bq :: (escName t ++ bq ::
          ('.' :: bq :: (intChars p ++ [bq]))))) := by
      rw [keyOf, if_neg hp, quoteSchema]
      simp [List.append_assoc]
    rw [hkey]
    have e1 : parseName (escName s ++ bq ::
        ('.' :: bq :: (escName t ++ bq ::
          ('.' :: bq :: (intChars p ++ [bq]))))) =
        some (s, '.' :: bq :: (escName t ++ bq ::
          ('.' :: bq :: (intChars p ++ [bq])))) :=
      parseName_esc s _ (show ('.' : Char) ≠ bq by decide)
    have e2 : parseName (escName t ++ bq ::
        ('.' :: bq :: (intChars p ++ [bq]))) =
        some (t, '.' :: bq :: (intChars p ++ [bq])) :=
      parseName_esc t _ (show ('.' : Char) ≠ bq by decide)
    have e3 : (intChars p ++ [bq]).takeWhile (fun ch => decide (ch ≠ bq)) =
        intChars p := takeWhile_ne_bq _ (intChars_no_bq p)
    have e4 : (intChars p ++ [bq]).takeWhile (fun ch => !(decide (ch = bq))) =
        intChars p := by
      simpa using e3
    simp [decodeKey, e1, e2, e3, e4, parseInt_intChars p hp]

theorem keyOf_inj {s1 t1 : List Char} {p1 : Int} {s2 : List Char}
    {t2 : List Char} {p2 : Int} (h : keyOf s1 t1 p1 = keyOf s2 t2 p2) :
    s1 = s2 ∧ t1 = t2 ∧ p1 = p2 := by
  have h1 := decodeKey_keyOf s1 t1 p1
  rw [h, decodeKey_keyOf s2 t2 p2, Option.some.injEq] at h1
  simp only [Prod.ext_iff] at h1
  exact ⟨h1.1.symm, h1.2.1.symm, h1.2.2.symm⟩


theorem assocFind_mem : ∀ (m : List (List Char × Int)) (k : List Char)
    (v : Int), assocFind m k = some v → v ∈ m.map Prod.snd := by
  intro m
  induction m with
  | nil =>
    intro k v h
    cases h
  | cons kv rest ih =>
    intro k v h
    obtain ⟨k0, v0⟩ := kv
    simp only [assocFind] at h
    split at h
    · obtain rfl : v0 = v := Option.some.inj h
      simp
    · have := ih k v h
      simp [this]

theorem assocFind_distinct : ∀ (m : List (List Char × Int)),
    (m.map Prod.snd).Nodup →
    ∀ (k1 k2 : List Char) (v1 v2 : Int), k1 ≠ k2 →
    assocFind m k1 = some v1 → assocFind m k2 = some v2 → v1 ≠ v2 := by
  intro m
  induction m with
  | nil =>
    intro _ k1 k2 v1 v2 _ h1 _
    cases h1
  | cons kv rest ih =>
    intro hnd k1 k2 v1 v2 hk h1 h2
    obtain ⟨k0, v0⟩ := kv
    simp only [List.map_cons, List.nodup_cons] at hnd
    simp only [assocFind] at h1 h2
    by_cases e1 : k0 = k1
    · rw [if_pos e1] at h1
      obtain rfl : v0 = v1 := Option.some.inj h1
      have e2 : ¬ k0 = k2 := by
        rw [e1]
        exact hk
      rw [if_neg e2] at h2
      have hv2 : v2 ∈ rest.map Prod.snd := assocFind_mem rest k2 v2 h2
      intro he
      rw [he] at hnd
      exact hnd.1 hv2
    · rw [if_neg e1] at h1
      by_cases e2 : k0 = k2
      · rw [if_pos e2] at h2
        obtain rfl : v0 = v2 := Option.some.inj h2
        have hv1 : v1 ∈ rest.map Prod.snd := assocFind_mem rest k1 v1 h1
        intro he
        rw [← he] at hnd
        exact hnd.1 hv1
      · rw [if_neg e2] at h2
        exact ih hnd.2 k1 k2 v1 v2 hk h1 h2

theorem generate_persist (g : fakeTableIDGenerator) (s t : List Char)
    (p : Int) (k : List Char) (v : Int)
    (h : assocFind g.tableIDs k = some v) :
    assocFind (generateFakeTableID g s t p).2.tableIDs k = some v := by
  unfold generateFakeTableID
  cases hf : assocFind g.tableIDs (keyOf s t p) with
  | some id =>
    dsimp only
    exact h
  | none =>
    dsimp only
    have hne : ¬ keyOf s t p = k := by
      intro he
      rw [he, h] at hf
      cases hf
    simp only [assocFind]
    rw [if_neg hne]
    exact h

theorem generate_step (g : fakeTableIDGenerator) (s t : List Char) (p : Int)
    (hinv : genInv g) :
    genInv (generateFakeTableID g s t p).2 ∧
    1 ≤ (generateFakeTableID g s t p).1 ∧
    assocFind (generateFakeTableID g s t p).2.tableIDs (keyOf s t p) =
      some (generateFakeTableID g s t p).1 := by
  obtain ⟨hb, hc, hnd⟩ := hinv
  unfold generateFakeTableID
  cases hf : assocFind g.tableIDs (keyOf s t p) with
  | some id =>
    dsimp only
    exact ⟨⟨hb, hc, hnd⟩, (hb id (assocFind_mem _ _ _ hf)).1, hf⟩
  | none =>
    dsimp only
    unfold genInv
    dsimp only
    refine ⟨⟨?_, by omega, ?_⟩, by omega, ?_⟩
    · intro v hv
      simp only [List.map_cons] at hv
      rcases List.mem_cons.mp hv with rfl | hv2
      · exact ⟨by omega, by omega⟩
      · have := hb v hv2
        exact ⟨this.1, by omega⟩
    · simp only [List.map_cons, List.nodup_cons]
      refine ⟨?_, hnd⟩
      intro hmem
      have := hb _ hmem
      omega
    · simp [assocFind]

theorem genRun_persist : ∀ (reqs : List (List Char × List Char × Int))
    (g : fakeTableIDGenerator) (k : List Char) (v : Int),
    assocFind g.tableIDs k = some v →
    assocFind (genRun g reqs).2.tableIDs k = some v := by
  intro reqs
  induction reqs with
  | nil =>
    intro g k v h
    exact h
  | cons r rest ih =>
    intro g k v h
    obtain ⟨s, t, p⟩ := r
    simp only [genRun]
    exact ih _ k v (generate_persist g s t p k v h)

theorem genRun_spec : ∀ (reqs : List (List Char × List Char × Int))
    (g : fakeTableIDGenerator), genInv g →
    genInv (genRun g reqs).2 ∧
    (genRun g reqs).1.length = reqs.length ∧
    (∀ i, i < reqs.length →
      1 ≤ (genRun g reqs).1.getD i 0 ∧
      assocFind (genRun g reqs).2.tableIDs
        (keyOf (reqs.getD i ([], [], 0)).1 (reqs.getD i ([], [], 0)).2.1
          (reqs.getD i ([], [], 0)).2.2) =
        some ((genRun g reqs).1.getD i 0)) := by
  intro reqs
  induction reqs with
  | nil =>
    intro g hg
    exact ⟨hg, rfl, fun i hi => absurd hi (by simp)⟩
  | cons r rest ih =>
    intro g hg
    obtain ⟨s, t, p⟩ := r
    have hstep := generate_step g s t p hg
    have hrest := ih (generateFakeTableID g s t p).2 hstep.1
    simp only [genRun]
    refine ⟨hrest.1, by simp [hrest.2.1], ?_⟩
    intro i hi
    cases i with
    | zero =>
      refine ⟨by simpa using hstep.2.1, ?_⟩
      have hpersist := genRun_persist rest (generateFakeTableID g s t p).2
        (keyOf s t p) (generateFakeTableID g s t p).1 hstep.2.2
      simpa using hpersist
    | succ j =>
      have hj : j < rest.length := by simpa using hi
      have hthis := hrest.2.2 j hj
      exact ⟨by simpa using hthis.1, by simpa using hthis.2⟩

/-- Claim C10: `generateFakeTableID` is idempotent (a repeated call with
the same (schema, table, partition) triple returns the same id and leaves
the generator unchanged) and injective (across any request sequence from
the initial generator, distinct triples — partition 0 standing for
"absent" — receive distinct ids), and every id issued is strictly
positive. -/
theorem c10_generateFakeTableID :
    (∀ (g : fakeTableIDGenerator) (s t : List Char) (p : Int),
      generateFakeTableID (generateFakeTableID g s t p).2 s t p =
        generateFakeTableID g s t p) ∧
    (∀ (reqs : List (List Char × List Char × Int)) (i j : Nat),
      i < reqs.length → j < reqs.length →
      reqs.getD i ([], [], 0) ≠ reqs.getD j ([], [], 0) →
      (genRun newFakeTableIDGenerator reqs).1.getD i 0 ≠
        (genRun newFakeTableIDGenerator reqs).1.getD j 0) ∧
    (∀ (reqs : List (List Char × List Char × Int)) (i : Nat),
      i < reqs.length →
      1 ≤ (genRun newFakeTableIDGenerator reqs).1.getD i 0) := by
  have hinv0 : genInv newFakeTableIDGenerator :=
    ⟨fun v hv => by simp [newFakeTableIDGenerator] at hv, le_rfl,
     List.nodup_nil⟩
  refine ⟨?_, ?_, ?_⟩
  · intro g s t p
    cases hf : assocFind g.tableIDs (keyOf s t p) with
    | some id =>
      have h1 : generateFakeTableID g s t p = (id, g) := by
        unfold generateFakeTableID
        rw [hf]
      rw [h1]
      exact h1
    | none =>
      have h1 : generateFakeTableID g s t p =
          (g.currentTableID + 1,
           { tableIDs :=
               (keyOf s t p, g.currentTableID + 1) :: g.tableIDs
             currentTableID := g.currentTableID + 1 }) := by
        unfold generateFakeTableID
        rw [hf]
      rw [h1]
      simp [generateFakeTableID, assocFind]
  · intro reqs i j hi hj hne
    have hspec := genRun_spec reqs newFakeTableIDGenerator hinv0
    have hfi := (hspec.2.2 i hi).2
    have hfj := (hspec.2.2 j hj).2
    have hkne : keyOf (reqs.getD i ([], [], 0)).1
        (reqs.getD i ([], [], 0)).2.1 (reqs.getD i ([], [], 0)).2.2 ≠
        keyOf (reqs.getD j ([], [], 0)).1 (reqs.getD j ([], [], 0)).2.1
          (reqs.getD j ([], [], 0)).2.2 := by
      intro he
      obtain ⟨e1, e2, e3⟩ := keyOf_inj he
      apply hne
      rw [Prod.ext_iff]
      exact ⟨e1, by rw [Prod.ext_iff]; exact ⟨e2, e3⟩⟩
    exact assocFind_distinct _ hspec.1.2.2 _ _ _ _ hkne hfi hfj
  · intro reqs i hi
    exact ((genRun_spec reqs newFakeTableIDGenerator hinv0).2.2 i hi).1

/-- Claim C10 witness. -/
theorem c10_generateFakeTableID_witness :
    (0 < [reqX, reqY].length ∧ 1 < [reqX, reqY].length ∧
      [reqX, reqY].getD 0 ([], [], 0) ≠ [reqX, reqY].getD 1 ([], [], 0)) ∧
    (genRun newFakeTableIDGenerator [reqX, reqY]).1.getD 0 0 ≠
      (genRun newFakeTableIDGenerator [reqX, reqY]).1.getD 1 0 :=
  ⟨by decide,
   c10_generateFakeTableID.2.1 [reqX, reqY] 0 1 (by decide) (by decide)
     (by decide)⟩


end TiCDC
